import Mathlib

/-!
Shallow embedding of go-psyq-signatures (src/main.go): a PSY-Q object-module
signature scanner.  Bytes are modelled as Nat values, Go slices as List,
Go maps as association lists with Go map get/put semantics, and uint32
arithmetic as Nat arithmetic taken modulo 2^32.
-/

/-- One signature record after compilation: the parsed fields of the Go
struct Signature in src/main.go, with the compiled byte array in the field
named signature and the parallel wildcard mask in wildcard. -/
structure Signature where
  name : String
  labels : List (String × Nat)
  bss : List (String × Nat)
  signature : List Nat
  wildcard : List Bool
  deriving DecidableEq, Repr

/-- Inner loop of checkSignature (src/main.go lines 116-124): at candidate
offset i, every non-wildcard pattern position must equal the blob byte. -/
def matchAt (b : List Nat) (s : Signature) (i : Nat) : Bool :=
  (List.range s.signature.length).all fun j =>
    s.wildcard.getD j false || (b.getD (i + j) 0 == s.signature.getD j 0)

/-- First index i with i0 <= i < i0 + n satisfying p, else -1: the outer
scan loop shape of checkSignature. -/
def findFirst (p : Nat → Bool) : Nat → Nat → Int
  | _, 0 => -1
  | i, n + 1 => if p i then Int.ofNat i else findFirst p (i + 1) n

/-- checkSignature (src/main.go lines 108-130): returns the offset of the
first occurrence, or -1.  The Go loop bound is i < len(b) - sigLen, an
exclusive bound, reproduced here as a scan over len(b) - sigLen candidate
offsets starting at 0 (Nat subtraction truncates at 0 exactly as the Go
int comparison makes the loop body never run when sigLen >= len(b)). -/
def checkSignature (b : List Nat) (s : Signature) : Int :=
  if s.signature.length = 0 then -1
  else findFirst (matchAt b s) 0 (b.length - s.signature.length)

/-- The Go struct match in src/main.go lines 132-138.  The Go field end is
a Lean keyword and is embedded as endOff; symbols is the Go map from
uint32 address to label name, embedded as an association list with Go map
put semantics (symInsert). -/
structure Match where
  start : Nat
  endOff : Nat
  name : String
  version : String
  symbols : List (Nat × String)
  deriving DecidableEq, Repr

/-- Go map read m[k]: first binding for the key, if any. -/
def lookupM : List (String × Match) → String → Option Match
  | [], _ => none
  | (k, v) :: rest, key => if k == key then some v else lookupM rest key

/-- Go map overwrite of an existing key: replace the binding in place. -/
def replaceM : List (String × Match) → String → Match → List (String × Match)
  | [], _, _ => []
  | (k, v) :: rest, key, nv => if k == key then (k, nv) :: rest else (k, v) :: replaceM rest key nv

/-- One step of the aggregation loop in do (src/main.go lines 242-253):
insert a new module name, otherwise replace the stored match only when
the incoming one has strictly more symbols. -/
def mergeInto (acc : List (String × Match)) (m : Match) : List (String × Match) :=
  match lookupM acc m.name with
  | none => acc ++ [(m.name, m)]
  | some ex => if ex.symbols.length < m.symbols.length then replaceM acc m.name m else acc

/-- The whole aggregation: fold the merge step over the raw matches in the
order they are fed to the accumulator. -/
def mergeMatches (ms : List Match) : List (String × Match) :=
  ms.foldl mergeInto []

/-- The merge policy restricted to one module name: fold the keep-or-replace
decision over the matches carrying that name. -/
def mergeName (o : Option Match) (ms : List Match) : Option Match :=
  ms.foldl (fun acc m =>
    match acc with
    | none => some m
    | some ex => if ex.symbols.length < m.symbols.length then some m else some ex) o

/-- Symbol cardinality of an optional stored match. -/
def symCountOpt (o : Option Match) : Option Nat :=
  o.map fun m => m.symbols.length

/-- Running maximum of symbol cardinalities, the order-insensitive residue
of the merge policy. -/
def maxCountStep (a : Option Nat) (c : Nat) : Option Nat :=
  match a with
  | none => some c
  | some x => some (Nat.max x c)

/-- A raw match for module M1.OBJ carrying two symbols. -/
def twoSymM : Match := ⟨0, 4, "M1.OBJ", "v1", [(1, "a"), (2, "b")]⟩

/-- A raw match for the same module carrying five symbols. -/
def fiveSymM : Match := ⟨0, 4, "M1.OBJ", "v2", [(1, "a"), (2, "b"), (3, "c"), (4, "d"), (5, "e")]⟩

/-- A raw match for module M with no symbols, version v1. -/
def tieM1 : Match := ⟨0, 4, "M", "v1", []⟩

/-- A raw match for module M with no symbols, version v2: ties with tieM1
on symbol cardinality but differs in the version field. -/
def tieM2 : Match := ⟨0, 4, "M", "v2", []⟩

/-- strings.ToLower restricted to the ASCII names of the corpus. -/
def strToLower (s : String) : String := ⟨s.data.map Char.toLower⟩

/-- strings.HasSuffix. -/
def strEndsWith (s suffix : String) : Bool := suffix.data.isSuffixOf s.data

/-- strings.TrimSuffix: drop the suffix only on an exact, case-sensitive
match. -/
def trimSuffixStr (s suffix : String) : String :=
  if strEndsWith s suffix then ⟨s.data.take (s.data.length - suffix.data.length)⟩ else s

/-- The module name as printed by do (src/main.go lines 268, 273):
strings.ToLower(strings.TrimSuffix(name, ".OBJ")). -/
def moduleName (name : String) : String := strToLower (trimSuffixStr name ".OBJ")

/-- A region boundary as printed by do: a named segment start or an
unnamed gap start. -/
inductive Segment where
  | named (off : Nat) (name : String)
  | gap (off : Nat)
  deriving DecidableEq, Repr

/-- Insertion step of the sort modelling sort.Slice. -/
def insertSorted {α : Type} (le : α → α → Bool) (x : α) : List α → List α
  | [] => [x]
  | y :: ys => if le x y then x :: y :: ys else y :: insertSorted le x ys

/-- sort.Slice with the given nondecreasing comparator. -/
def sortBy {α : Type} (le : α → α → Bool) (l : List α) : List α :=
  l.foldr (insertSorted le) []

/-- getMatchesSorted (src/main.go lines 199-208): map values sorted
ascending by start. -/
def sortByStart (ms : List Match) : List Match :=
  sortBy (fun a b => decide (a.start ≤ b.start)) ms

/-- The gap-aware tail of the region loop (src/main.go lines 269-274):
a gap boundary at the previous match's end exactly when the next start is
strictly beyond it, then the next named boundary. -/
def layoutRest (prev : Match) : List Match → List Segment
  | [] => []
  | m :: rest =>
    (if prev.endOff < m.start then [Segment.gap prev.endOff] else []) ++
      (Segment.named m.start (moduleName m.name) :: layoutRest m rest)

/-- The whole region layout over start-sorted matches (first named segment
then the gap-aware tail). -/
def regionLayout : List Match → List Segment
  | [] => []
  | m0 :: rest => Segment.named m0.start (moduleName m0.name) :: layoutRest m0 rest

/-- The Go struct VersionEstimate (src/main.go lines 172-175); the Go
field match is a Lean keyword and is embedded as ratio; the float64 is
embedded as the exact rational. -/
structure VersionEstimate where
  version : String
  ratio : ℚ
  deriving DecidableEq, Repr

/-- Go map increment versions[v]++ on an association list. -/
def bumpCount : List (String × Nat) → String → List (String × Nat)
  | [], v => [(v, 1)]
  | (k, c) :: rest, v => if k == v then (k, c + 1) :: rest else (k, c) :: bumpCount rest v

/-- The per-version tallies built by estimatePsyqVesion (src/main.go
lines 178-181). -/
def countVersions (ms : List Match) : List (String × Nat) :=
  ms.foldl (fun acc m => bumpCount acc m.version) []

/-- Go map read with zero default on the tally map. -/
def lookupCount : List (String × Nat) → String → Nat
  | [], _ => 0
  | (k, c) :: rest, key => if k == key then c else lookupCount rest key

/-- estimatePsyqVesion (src/main.go lines 177-197): per-version ratio of
resolved matches, sorted ascending by ratio, truncated to 3 entries. -/
def estimatePsyqVesion (resolved : List (String × Match)) : List VersionEstimate :=
  let versions := countVersions (resolved.map Prod.snd)
  let total : ℚ := (resolved.length : ℚ)
  let out := versions.map fun vc => VersionEstimate.mk vc.1 ((vc.2 : ℚ) / total)
  let sorted := sortBy (fun a b => decide (a.ratio ≤ b.ratio)) out
  if sorted.length ≥ 3 then sorted.take 3 else sorted

/-- Go map put on the symbols map. -/
def symInsert : List (Nat × String) → Nat → String → List (Nat × String)
  | [], k, v => [(k, v)]
  | (k0, v0) :: rest, k, v =>
    if k0 == k then (k0, v) :: rest else (k0, v0) :: symInsert rest k v

/-- uint32 truncation. -/
def u32 (n : Nat) : Nat := n % 4294967296

/-- The symbol table built in getMatches (src/main.go lines 158-166):
labels whose names begin with loc_ or text_ are excluded; addresses are
the uint32 sum baseAddr + offset + label offset. -/
def buildSymbols (baseAddr offset : Nat) (labels : List (String × Nat)) : List (Nat × String) :=
  labels.foldl (fun acc l =>
    if ("loc_".data.isPrefixOf l.1.data) || ("text_".data.isPrefixOf l.1.data) then acc
    else symInsert acc (u32 (baseAddr + offset + l.2)) l.1) []

/-- getMatches (src/main.go lines 140-170), with the catalog fetch made a
parameter: scan every compiled signature and keep the successful ones. -/
def getMatches (b : List Nat) (baseAddr : Nat) (sdkver : String)
    (signatures : List Signature) : List Match :=
  signatures.foldl (fun acc sig =>
    match checkSignature b sig with
    | Int.ofNat offset =>
      acc ++ [{ start := offset, endOff := offset + sig.signature.length,
                name := sig.name, version := sdkver,
                symbols := buildSymbols baseAddr offset sig.labels }]
    | Int.negSucc _ => acc) []

/-- One raw record of the signature catalog (name, sig text, labels,
xbss), before compilation. -/
structure RawSignature where
  name : String
  sig : String
  labels : List (String × Nat)
  bss : List (String × Nat)
  deriving DecidableEq, Repr

/-- A hexadecimal digit as accepted by strconv.ParseUint base 16. -/
def isHexDigit (c : Char) : Bool :=
  (('0' ≤ c) && (c ≤ '9')) || (('a' ≤ c) && (c ≤ 'f')) || (('A' ≤ c) && (c ≤ 'F'))

/-- Value of a hexadecimal digit. -/
def hexVal (c : Char) : Nat :=
  if ('0' ≤ c) && (c ≤ '9') then c.toNat - '0'.toNat
  else if ('a' ≤ c) && (c ≤ 'f') then c.toNat - 'a'.toNat + 10
  else c.toNat - 'A'.toNat + 10

/-- strconv.ParseUint(tok, 16, 8): nonempty, all hex digits, value below
256. -/
def parseHexByte (tok : String) : Option Nat :=
  if tok.data = [] then none
  else if tok.data.all isHexDigit then
    let v := tok.data.foldl (fun acc c => acc * 16 + hexVal c) 0
    if v < 256 then some v else none
  else none

/-- The token loop of fetchPsyqSignatures (src/main.go lines 86-102):
a ?? token appends a wildcard with placeholder byte 0, an empty token is
skipped, anything else must parse as one hex byte. -/
def compileTokens (sig : Signature) : List String → Option Signature
  | [] => some sig
  | tok :: rest =>
    if tok = "??" then
      compileTokens { sig with wildcard := sig.wildcard ++ [true],
                               signature := sig.signature ++ [0] } rest
    else if tok = "" then compileTokens sig rest
    else
      match parseHexByte tok with
      | none => none
      | some b =>
        compileTokens { sig with wildcard := sig.wildcard ++ [false],
                                 signature := sig.signature ++ [b] } rest

/-- strings.Split(s, " "): split on every single space, keeping the empty
tokens produced by doubled whitespace. -/
def splitSpaces (cs : List Char) : List (List Char) :=
  cs.foldr (fun c acc =>
    if c = ' ' then [] :: acc else (c :: acc.headD []) :: acc.tailD []) [[]]

/-- Compilation of one record: lower-case the sig text, split on single
spaces, fold the token loop. -/
def compileSignature (r : RawSignature) : Option Signature :=
  compileTokens ⟨r.name, r.labels, r.bss, [], []⟩
    ((splitSpaces (strToLower r.sig).data).map fun t => ⟨t⟩)

/-- Compilation of a whole fetched set; the first malformed record aborts
the set, as the error return in fetchPsyqSignatures does. -/
def compileSignatures : List RawSignature → Option (List Signature)
  | [] => some []
  | r :: rest =>
    match compileSignature r, compileSignatures rest with
    | some s, some ss => some (s :: ss)
    | _, _ => none

/-- getSymbolsSorted (src/main.go lines 210-224): flatten every symbols
map into (name, address) records and sort ascending by address. -/
def getSymbolsSorted (resolved : List (String × Match)) : List (String × Nat) :=
  sortBy (fun a b => decide (a.2 ≤ b.2))
    (resolved.foldl (fun acc p => acc ++ p.2.symbols.map (fun kv => (kv.2, kv.1))) [])

/-- An uppercase hexadecimal digit character. -/
def hexDigitU (n : Nat) : Char :=
  if n < 10 then Char.ofNat (48 + n) else Char.ofNat (55 + n)

/-- Digits of fmt %X, fuel-structured so the kernel can evaluate it. -/
def hexStrAux : Nat → Nat → List Char
  | 0, _ => []
  | fuel + 1, n => if n < 16 then [hexDigitU n] else hexStrAux fuel (n / 16) ++ [hexDigitU (n % 16)]

/-- fmt %X: uppercase hexadecimal, no padding. -/
def hexStr (n : Nat) : String := ⟨hexStrAux (n + 1) n⟩

/-- fmt %08X: uppercase hexadecimal padded to eight digits. -/
def hex8 (n : Nat) : String := ⟨(List.range 8).map fun k => hexDigitU (n / 16 ^ (7 - k) % 16)⟩

/-- One region line of the report (src/main.go lines 268-273). -/
def segmentLine : Segment → String
  | .named off name => " - [0x" ++ hexStr off ++ ", c, " ++ name ++ "]"
  | .gap off => " - [0x" ++ hexStr off ++ ", c]"

/-- One symbol line of the report (src/main.go line 276): note that
baseAddr is added to the stored address again at print time. -/
def symbolLine (baseAddr : Nat) (sym : String × Nat) : String :=
  sym.1 ++ " = 0x" ++ hex8 (u32 (baseAddr + sym.2))

/-- The reporting phase of do (src/main.go lines 226-278) as data: the
version estimates, the region lines and the symbol lines; none models the
fatal exit when no signature matched. -/
def doReport (b : List Nat) (baseAddr : Nat)
    (versionSigs : List (String × List Signature)) :
    Option (List VersionEstimate × List String × List String) :=
  let allMatches := mergeMatches
    ((versionSigs.map fun p => getMatches b baseAddr p.1 p.2).flatten)
  if allMatches = [] then none
  else some (estimatePsyqVesion allMatches,
    (regionLayout (sortByStart (allMatches.map Prod.snd))).map segmentLine,
    (getSymbolsSorted allMatches).map (symbolLine baseAddr))

/-- The blob-loading step of main (src/main.go lines 285-292): the bytes
are rejected when len(data) <= 0x800, otherwise scanning proceeds on
data[0x800:]. -/
def loadBlob (data : List Nat) : Option (List Nat) :=
  if data.length ≤ 0x800 then none else some (data.drop 0x800)

/-- The end-to-end scenario blob: 64 zero bytes. -/
def c2Blob : List Nat := List.replicate 64 0

/-- The end-to-end scenario record: signature text 00 00 ?? 00, module
X.OBJ, one label FOO at offset 1. -/
def c2Raw : RawSignature := ⟨"X.OBJ", "00 00 ?? 00", [("FOO", 1)], []⟩

/-- Its compiled form. -/
def c2Sig : Signature := ⟨"X.OBJ", [("FOO", 1)], [], [0, 0, 0, 0], [false, false, true, false]⟩

theorem findFirst_eq_ofNat {p : Nat → Bool} {i n k : Nat}
    (h : findFirst p i n = Int.ofNat k) :
    i ≤ k ∧ k < i + n ∧ p k = true ∧ ∀ m, i ≤ m → m < k → p m = false := by
  induction n generalizing i with
  | zero => simp [findFirst] at h
  | succ n ih =>
    by_cases hp : p i
    · simp [findFirst, hp] at h
      subst h
      exact ⟨le_refl _, by omega, hp, fun m h1 h2 => absurd h1 (by omega)⟩
    · simp [findFirst, hp] at h
      obtain ⟨h1, h2, h3, h4⟩ := ih h
      refine ⟨by omega, by omega, h3, fun m hm1 hm2 => ?_⟩
      rcases Nat.eq_or_lt_of_le hm1 with rfl | hlt
      · exact Bool.eq_false_iff.mpr hp
      · exact h4 m hlt hm2

theorem findFirst_congr {p q : Nat → Bool} (h : ∀ j, p j = q j) :
    ∀ i n, findFirst p i n = findFirst q i n := by
  intro i n
  induction n generalizing i with
  | zero => rfl
  | succ n ih => simp [findFirst, h i, ih]

theorem matchAt_true_iff {b : List Nat} {s : Signature} {i : Nat} :
    matchAt b s i = true ↔
      ∀ j, j < s.signature.length → s.wildcard.getD j false = false →
        b.getD (i + j) 0 = s.signature.getD j 0 := by
  simp only [matchAt, List.all_eq_true, List.mem_range, Bool.or_eq_true, beq_iff_eq,
    List.getD_eq_getElem?_getD]
  constructor
  · intro h j hj hw
    rcases h j hj with h1 | h1
    · rw [hw] at h1; cases h1
    · exact h1
  · intro h j hj
    by_cases hw : s.wildcard[j]?.getD false = true
    · exact Or.inl hw
    · exact Or.inr (h j hj (by simpa using hw))

/-- Claim C5: if checkSignature returns a non-negative offset k, every
non-wildcard pattern byte agrees with the blob at k, and every smaller
offset fails the non-wildcard comparison somewhere: leftmost match. -/
theorem checkSignature_leftmost (b : List Nat) (s : Signature) (k : Nat)
    (hlen : 1 ≤ s.signature.length) (hle : s.signature.length ≤ b.length)
    (h : checkSignature b s = Int.ofNat k) :
    (∀ j, j < s.signature.length → s.wildcard.getD j false = false →
        b.getD (k + j) 0 = s.signature.getD j 0) ∧
    (∀ i, i < k → ∃ j, j < s.signature.length ∧
        s.wildcard.getD j false = false ∧ b.getD (i + j) 0 ≠ s.signature.getD j 0) := by
  have hne : ¬ s.signature.length = 0 := by omega
  rw [checkSignature, if_neg hne] at h
  obtain ⟨-, -, hk, hmin⟩ := findFirst_eq_ofNat h
  refine ⟨matchAt_true_iff.mp hk, fun i hi => ?_⟩
  have hfail : matchAt b s i = false := hmin i (Nat.zero_le i) hi
  by_contra hcon
  push_neg at hcon
  have : matchAt b s i = true := matchAt_true_iff.mpr fun j hj hw => hcon j hj hw
  simp [this] at hfail

/-- Witness for C5 at blob [1,2,3,4] and pattern [2,3] with no wildcards:
the scanner returns offset 1 and the theorem applies there. -/
theorem checkSignature_leftmost_witness :
    checkSignature [1, 2, 3, 4] ⟨"W", [], [], [2, 3], [false, false]⟩ = Int.ofNat 1 ∧
    (∀ j, j < 2 → ([false, false].getD j false) = false →
        ([1, 2, 3, 4].getD (1 + j) 0) = ([2, 3].getD j 0)) := by
  refine ⟨by decide, ?_⟩
  exact (checkSignature_leftmost [1, 2, 3, 4] ⟨"W", [], [], [2, 3], [false, false]⟩ 1
    (by decide) (by decide) (by decide)).1

/-- Claim C1: the scan bound defect observed concretely.  A one-byte blob equal
to the one-byte pattern matches at offset 0 (matchAt is true there), yet
checkSignature returns -1: the Go loop bound i < len(b) - sigLen excludes
the last valid candidate offset. -/
theorem checkSignature_boundary_miss :
    matchAt [66] ⟨"B", [], [], [66], [false]⟩ 0 = true ∧
    checkSignature [66] ⟨"B", [], [], [66], [false]⟩ = -1 := by
  exact ⟨by decide, by decide⟩

/-- Claim C10: scanning never reads the placeholder bytes stored at wildcard
positions: two signatures with the same length and wildcard mask that
agree at every non-wildcard position produce the same scan result on
every blob. -/
theorem checkSignature_wildcard_independent (b : List Nat) (s1 s2 : Signature)
    (hw : s1.wildcard = s2.wildcard)
    (hl : s1.signature.length = s2.signature.length)
    (hagree : ∀ j, j < s1.signature.length → s1.wildcard.getD j false = false →
      s1.signature.getD j 0 = s2.signature.getD j 0) :
    checkSignature b s1 = checkSignature b s2 := by
  have key : ∀ i, (matchAt b s1 i = true ↔ matchAt b s2 i = true) := by
    intro i
    rw [matchAt_true_iff, matchAt_true_iff]
    constructor
    · intro H j hj hwj
      rw [← hagree j (hl ▸ hj) (hw ▸ hwj)]
      exact H j (hl ▸ hj) (hw ▸ hwj)
    · intro H j hj hwj
      rw [hagree j hj hwj]
      exact H j (hl ▸ hj) (hw ▸ hwj)
  have hmatch : ∀ i, matchAt b s1 i = matchAt b s2 i := by
    intro i
    cases h2 : matchAt b s2 i
    · cases h1 : matchAt b s1 i
      · rfl
      · rw [← h2, (key i).mp h1]
    · exact (key i).mpr h2
  unfold checkSignature
  rw [hl]
  by_cases h0 : s2.signature.length = 0
  · simp [h0]
  · simp only [h0, if_false]
    exact findFirst_congr hmatch 0 _

/-- Witness for C10: two signatures differing only in the byte stored at
their wildcard position scan identically on the blob [9, 7, 5]. -/
theorem checkSignature_wildcard_independent_witness :
    checkSignature [9, 7, 5] ⟨"W1", [], [], [1, 7], [true, false]⟩ =
    checkSignature [9, 7, 5] ⟨"W2", [], [], [3, 7], [true, false]⟩ :=
  checkSignature_wildcard_independent _ _ _ (by decide) (by decide)
    (by
      intro j hj hwj
      have hj2 : j < 2 := hj
      interval_cases j
      · exact absurd hwj (by decide)
      · decide)

theorem mergeName_cons (o : Option Match) (m : Match) (fl : List Match) :
    mergeName o (m :: fl) =
      mergeName (match o with
        | none => some m
        | some ex => if ex.symbols.length < m.symbols.length then some m else some ex) fl := rfl

theorem lookupM_append (acc : List (String × Match)) (k : String) (v : Match) (key : String) :
    lookupM (acc ++ [(k, v)]) key =
      match lookupM acc key with
      | some x => some x
      | none => if k == key then some v else none := by
  induction acc with
  | nil => rfl
  | cons p rest ih =>
    obtain ⟨k0, v0⟩ := p
    simp only [List.cons_append, lookupM]
    by_cases h : (k0 == key) = true
    · simp [h]
    · simp [h, ih]

theorem lookupM_replaceM_self {acc : List (String × Match)} {key : String} {ex : Match}
    (nv : Match) (h : lookupM acc key = some ex) :
    lookupM (replaceM acc key nv) key = some nv := by
  induction acc with
  | nil => simp [lookupM] at h
  | cons p rest ih =>
    obtain ⟨k0, v0⟩ := p
    by_cases hk : (k0 == key) = true
    · simp [replaceM, hk, lookupM]
    · simp only [lookupM, hk, if_false] at h
      simp [replaceM, hk, lookupM, ih h]

theorem lookupM_replaceM_other {key key' : String} (acc : List (String × Match)) (nv : Match)
    (h : key ≠ key') :
    lookupM (replaceM acc key nv) key' = lookupM acc key' := by
  induction acc with
  | nil => rfl
  | cons p rest ih =>
    obtain ⟨k0, v0⟩ := p
    by_cases hk : (k0 == key) = true
    · have hne : (k0 == key') = false := by
        rw [beq_iff_eq] at hk
        subst hk
        exact beq_eq_false_iff_ne.mpr h
      simp [replaceM, hk, lookupM, hne]
    · simp [replaceM, hk, lookupM, ih]

theorem lookupM_mergeInto (acc : List (String × Match)) (m : Match) (M : String) :
    lookupM (mergeInto acc m) M =
      if m.name = M then
        match lookupM acc M with
        | none => some m
        | some ex => if ex.symbols.length < m.symbols.length then some m else some ex
      else lookupM acc M := by
  by_cases hname : m.name = M
  · subst hname
    rw [if_pos rfl]
    unfold mergeInto
    cases hacc : lookupM acc m.name with
    | none =>
      rw [lookupM_append, hacc]
      simp
    | some ex =>
      by_cases hlt : ex.symbols.length < m.symbols.length
      · simp only [hlt, if_true]
        exact lookupM_replaceM_self m hacc
      · simp [hlt, hacc]
  · rw [if_neg hname]
    unfold mergeInto
    cases hacc : lookupM acc m.name with
    | none =>
      rw [lookupM_append]
      cases h2 : lookupM acc M with
      | some x => rfl
      | none => simp [beq_eq_false_iff_ne.mpr hname]
    | some ex =>
      by_cases hlt : ex.symbols.length < m.symbols.length
      · simp only [hlt, if_true]
        exact lookupM_replaceM_other acc m hname
      · simp [hlt]

theorem lookupM_foldl_mergeInto (l : List Match) :
    ∀ (acc : List (String × Match)) (M : String),
      lookupM (l.foldl mergeInto acc) M =
        mergeName (lookupM acc M) (l.filter fun m => m.name == M) := by
  induction l with
  | nil => intro acc M; rfl
  | cons m rest ih =>
    intro acc M
    simp only [List.foldl_cons]
    rw [ih]
    by_cases hname : m.name = M
    · have hb : (m.name == M) = true := beq_iff_eq.mpr hname
      have hfilt : List.filter (fun m => m.name == M) (m :: rest) =
          m :: List.filter (fun m => m.name == M) rest := by
        simp [List.filter_cons, hb]
      rw [hfilt, mergeName_cons]
      congr 1
      rw [lookupM_mergeInto, if_pos hname]
    · have hb : (m.name == M) = false := beq_eq_false_iff_ne.mpr hname
      have hfilt : List.filter (fun m => m.name == M) (m :: rest) =
          List.filter (fun m => m.name == M) rest := by
        simp [List.filter_cons, hb]
      rw [hfilt]
      congr 1
      rw [lookupM_mergeInto, if_neg hname]

theorem lookupM_mergeMatches (l : List Match) (M : String) :
    lookupM (mergeMatches l) M = mergeName none (l.filter fun m => m.name == M) :=
  lookupM_foldl_mergeInto l [] M

/-- Claim C3: the aggregation policy: a module name not yet present is inserted;
an existing entry is replaced only when the incoming match has strictly
more symbols (ties keep the incumbent); consequently a module matched once
with 2 symbols and once with 5 ends up, in either processing order, with
the 5-symbol variant. -/
theorem merge_policy_max_symbols :
    (∀ acc m, lookupM acc m.name = none →
      lookupM (mergeInto acc m) m.name = some m) ∧
    (∀ acc m ex, lookupM acc m.name = some ex →
      lookupM (mergeInto acc m) m.name =
        some (if ex.symbols.length < m.symbols.length then m else ex)) ∧
    (∀ (l : List Match) (M : String) (m1 m2 : Match),
      (l.filter (fun m => m.name == M) = [m1, m2] ∨
       l.filter (fun m => m.name == M) = [m2, m1]) →
      m1.symbols.length = 2 → m2.symbols.length = 5 →
      lookupM (mergeMatches l) M = some m2) := by
  refine ⟨fun acc m h => ?_, fun acc m ex h => ?_, fun l M m1 m2 hf h1 h2 => ?_⟩
  · rw [lookupM_mergeInto, if_pos rfl, h]
  · rw [lookupM_mergeInto, if_pos rfl, h]
    by_cases hlt : ex.symbols.length < m.symbols.length <;> simp [hlt]
  · rw [lookupM_mergeMatches]
    rcases hf with hf | hf <;> rw [hf] <;> simp [mergeName, h1, h2]

/-- Witness for C3: module M1.OBJ matched with a 2-symbol variant and a
5-symbol variant resolves to the 5-symbol variant. -/
theorem merge_policy_max_symbols_witness :
    lookupM (mergeMatches [twoSymM, fiveSymM]) "M1.OBJ" = some fiveSymM :=
  merge_policy_max_symbols.2.2 [twoSymM, fiveSymM] "M1.OBJ" twoSymM fiveSymM
    (Or.inl (by decide)) (by decide) (by decide)

/-- Claim C4 counterexample: two matches for the same module with equal symbol
cardinality but different version fields: the two processing orders store
different RawMatches, so aggregation is not order-independent as stated. -/
theorem mergeMatches_order_dependent :
    ([tieM1, tieM2] : List Match).Perm [tieM2, tieM1] ∧
    lookupM (mergeMatches [tieM1, tieM2]) "M" = some tieM1 ∧
    lookupM (mergeMatches [tieM2, tieM1]) "M" = some tieM2 ∧
    tieM1 ≠ tieM2 :=
  ⟨List.Perm.swap tieM2 tieM1 [], by decide, by decide, by decide⟩

theorem maxCountStep_comm (o : Option Nat) (x y : Nat) :
    maxCountStep (maxCountStep o y) x = maxCountStep (maxCountStep o x) y := by
  cases o with
  | none => simp [maxCountStep]; exact Nat.max_comm y x
  | some z => simp [maxCountStep, Nat.max_assoc]; rw [Nat.max_comm y x]

theorem foldl_maxCountStep_perm {c c' : List Nat} (h : c.Perm c') :
    ∀ o : Option Nat, c.foldl maxCountStep o = c'.foldl maxCountStep o := by
  induction h with
  | nil => intro o; rfl
  | cons x _ ih => intro o; simp only [List.foldl_cons]; exact ih _
  | swap x y l => intro o; simp only [List.foldl_cons]; rw [maxCountStep_comm]
  | trans _ _ ih1 ih2 => intro o; rw [ih1 o, ih2 o]

theorem symCountOpt_mergeName (fl : List Match) :
    ∀ o : Option Match, symCountOpt (mergeName o fl) =
      (fl.map fun m => m.symbols.length).foldl maxCountStep (symCountOpt o) := by
  induction fl with
  | nil => intro o; rfl
  | cons m fl ih =>
    intro o
    rw [mergeName_cons, ih, List.map_cons, List.foldl_cons]
    congr 1
    cases o with
    | none => rfl
    | some ex =>
      by_cases hlt : ex.symbols.length < m.symbols.length
      · simp [hlt, symCountOpt, maxCountStep, Nat.max_eq_right (le_of_lt hlt)]
      · simp [hlt, symCountOpt, maxCountStep, Nat.max_eq_left (Nat.le_of_not_lt hlt)]

/-- Claim C4 amended: aggregation is order-independent up to the stored symbol
cardinality: every permutation of the raw match list yields a resolved set
with the same module names, each holding a match with the same (maximal)
number of symbols; the identity of the stored variant may differ on ties. -/
theorem mergeMatches_perm_symCount (l l' : List Match) (h : l.Perm l') (M : String) :
    symCountOpt (lookupM (mergeMatches l) M) = symCountOpt (lookupM (mergeMatches l') M) := by
  rw [lookupM_mergeMatches, lookupM_mergeMatches, symCountOpt_mergeName, symCountOpt_mergeName]
  exact foldl_maxCountStep_perm (List.Perm.map _ (List.Perm.filter _ h)) _

/-- Witness for C4 amended, at the tied pair in the two orders. -/
theorem mergeMatches_perm_symCount_witness :
    symCountOpt (lookupM (mergeMatches [tieM1, tieM2]) "M") =
    symCountOpt (lookupM (mergeMatches [tieM2, tieM1]) "M") :=
  mergeMatches_perm_symCount _ _ (List.Perm.swap tieM2 tieM1 []) "M"

theorem mem_insertSorted {α : Type} {le : α → α → Bool} {x z : α} {l : List α} :
    z ∈ insertSorted le x l ↔ z = x ∨ z ∈ l := by
  induction l with
  | nil => simp [insertSorted]
  | cons y ys ih =>
    by_cases h : le x y <;> simp [insertSorted, h, ih] <;> tauto

theorem pairwise_insertSorted {α : Type} {le : α → α → Bool}
    (htot : ∀ a b, le a b = false → le b a = true)
    (htrans : ∀ a b c, le a b = true → le b c = true → le a c = true)
    (x : α) {l : List α} (h : l.Pairwise fun a b => le a b = true) :
    (insertSorted le x l).Pairwise fun a b => le a b = true := by
  induction l with
  | nil => simp [insertSorted]
  | cons y ys ih =>
    rcases List.pairwise_cons.mp h with ⟨hy, hys⟩
    by_cases hxy : le x y = true
    · simp only [insertSorted, hxy, if_true]
      refine List.pairwise_cons.mpr ⟨?_, h⟩
      intro z hz
      rcases List.mem_cons.mp hz with rfl | hz2
      · exact hxy
      · exact htrans x y z hxy (hy z hz2)
    · simp only [insertSorted, hxy, if_false]
      refine List.pairwise_cons.mpr ⟨?_, ih hys⟩
      intro z hz
      rcases mem_insertSorted.mp hz with heq | hz2
      · rw [heq]
        exact htot x y (by simpa using hxy)
      · exact hy z hz2

theorem pairwise_sortBy {α : Type} (le : α → α → Bool)
    (htot : ∀ a b, le a b = false → le b a = true)
    (htrans : ∀ a b c, le a b = true → le b c = true → le a c = true)
    (l : List α) :
    (sortBy le l).Pairwise fun a b => le a b = true := by
  induction l with
  | nil => simp [sortBy]
  | cons y ys ih => exact pairwise_insertSorted htot htrans y ih

theorem mem_sortBy {α : Type} {le : α → α → Bool} {z : α} {l : List α} :
    z ∈ sortBy le l ↔ z ∈ l := by
  induction l with
  | nil => simp [sortBy]
  | cons y ys ih =>
    show z ∈ insertSorted le y (sortBy le ys) ↔ _
    rw [mem_insertSorted]
    simp [ih]

/-- Claim C6: the region layout runs over matches sorted ascending by start; in
the gap-aware tail a gap boundary at the previous match's end is emitted
exactly when the next start exceeds that end strictly; the three-match
example produces segments A, B, one gap at 0x30, then C. -/
theorem regionLayout_gap_law :
    (∀ (prev m : Match) (rest : List Match),
      (layoutRest prev (m :: rest)).head? = some (Segment.gap prev.endOff) ↔
        prev.endOff < m.start) ∧
    (∀ ms : List Match, (sortByStart ms).Pairwise fun a b => a.start ≤ b.start) ∧
    regionLayout (sortByStart
      [⟨0x10, 0x20, "A", "v", []⟩, ⟨0x20, 0x30, "B", "v", []⟩, ⟨0x50, 0x60, "C", "v", []⟩]) =
      [Segment.named 0x10 "a", Segment.named 0x20 "b", Segment.gap 0x30,
        Segment.named 0x50 "c"] := by
  refine ⟨fun prev m rest => ?_, fun ms => ?_, by decide⟩
  · by_cases h : prev.endOff < m.start <;> simp [layoutRest, h]
  · have hp := pairwise_sortBy (fun a b : Match => decide (a.start ≤ b.start))
      (fun a b hab => by simp at hab ⊢; omega)
      (fun a b c hab hbc => by simp at hab hbc ⊢; omega) ms
    exact hp.imp fun h => of_decide_eq_true h

/-- Claim C8 counterexample: the code trims the ".OBJ" suffix case-sensitively,
so the name FOO.obj is printed foo.obj, not foo as the claim requires. -/
theorem moduleName_case_sensitive :
    moduleName "FOO.obj" = "foo.obj" ∧ moduleName "FOO.obj" ≠ "foo" :=
  ⟨by decide, by decide⟩

/-- Claim C8 amended: the printed module name is the match name with an exact,
case-sensitive ".OBJ" suffix stripped when present, and the remainder
lower-cased; names with the suffix in any other casing keep it. -/
theorem moduleName_amended (s : String) :
    (strEndsWith s ".OBJ" = true →
      moduleName s = strToLower ⟨s.data.take (s.data.length - 4)⟩) ∧
    (strEndsWith s ".OBJ" = false → moduleName s = strToLower s) := by
  constructor
  · intro h
    rw [moduleName, trimSuffixStr, if_pos h]
    have h4 : (".OBJ" : String).data.length = 4 := by decide
    rw [h4]
  · intro h
    rw [moduleName, trimSuffixStr, if_neg (by simp [h])]

/-- Witness for C8 amended at the name CODE.OBJ, which carries the exact
suffix. -/
theorem moduleName_amended_witness :
    strEndsWith "CODE.OBJ" ".OBJ" = true ∧
    moduleName "CODE.OBJ" =
      strToLower ⟨("CODE.OBJ" : String).data.take (("CODE.OBJ" : String).data.length - 4)⟩ :=
  ⟨by decide, (moduleName_amended "CODE.OBJ").1 (by decide)⟩

/-- Claim C9 counterexample: an input of exactly 0x800 bytes is not shorter
than the header, yet the guard len(data) <= 0x800 rejects it. -/
theorem loadBlob_exact_header_rejected :
    ¬((List.replicate 0x800 (0 : Nat)).length < 0x800) ∧
    loadBlob (List.replicate 0x800 0) = none := by
  constructor
  · rw [List.length_replicate]
    omega
  · unfold loadBlob
    rw [List.length_replicate, if_pos (le_refl 0x800)]

/-- Claim C9 amended: the loader rejects exactly the inputs of length at most
0x800 bytes; any strictly longer input proceeds with the bytes after the
0x800-byte header. -/
theorem loadBlob_amended (data : List Nat) :
    (loadBlob data = none ↔ data.length ≤ 0x800) ∧
    (0x800 < data.length → loadBlob data = some (data.drop 0x800)) := by
  constructor
  · constructor
    · intro h
      by_contra hc
      rw [loadBlob, if_neg hc] at h
      simp at h
    · intro h
      rw [loadBlob, if_pos h]
  · intro h
    rw [loadBlob, if_neg (by omega)]

/-- Witness for C9 amended at an input of 0x801 bytes. -/
theorem loadBlob_amended_witness :
    0x800 < (List.replicate 0x801 (0 : Nat)).length ∧
    loadBlob (List.replicate 0x801 0) = some ((List.replicate 0x801 (0 : Nat)).drop 0x800) :=
  ⟨by rw [List.length_replicate]; omega,
    (loadBlob_amended _).2 (by rw [List.length_replicate]; omega)⟩

/-- Claim C2: the end-to-end scenario.  The record compiles to pattern
00 00 ?? 00; on the 64-zero-byte blob the pipeline resolves one match
with start 0, end 4, name X.OBJ and the symbol FOO at address
baseAddress+1 = 0x80010001; the report carries the region line
" - [0x0, c, x]"; but the printed symbol line is FOO = 0x00020001, not
FOO = 0x80010001, because line 276 adds baseAddr a second time to the
already absolute stored address (uint32 wrap). -/
theorem pipeline_end_to_end :
    compileSignature c2Raw = some c2Sig ∧
    mergeMatches (getMatches c2Blob 0x80010000 "470" [c2Sig]) =
      [("X.OBJ", ⟨0, 4, "X.OBJ", "470", [(0x80010001, "FOO")]⟩)] ∧
    (doReport c2Blob 0x80010000 [("470", [c2Sig])]).map (fun t => (t.2.1, t.2.2)) =
      some ([" - [0x0, c, x]"], ["FOO = 0x00020001"]) ∧
    ("FOO = 0x00020001" : String) ≠ "FOO = 0x80010001" :=
  ⟨by decide, by decide, by decide, by decide⟩

theorem lookupCount_bumpCount (acc : List (String × Nat)) (v key : String) :
    lookupCount (bumpCount acc v) key =
      lookupCount acc key + (if key = v then 1 else 0) := by
  induction acc with
  | nil =>
    by_cases h : key = v
    · subst h
      simp [bumpCount, lookupCount]
    · simp [bumpCount, lookupCount, h, beq_eq_false_iff_ne.mpr (fun e => h e.symm)]
  | cons p rest ih =>
    obtain ⟨k, c⟩ := p
    by_cases hkv : k = v
    · subst hkv
      by_cases hkey : key = k
      · subst hkey
        simp [bumpCount, lookupCount]
      · simp [bumpCount, lookupCount, hkey, beq_eq_false_iff_ne.mpr (fun e => hkey e.symm)]
    · by_cases hkey : key = k
      · subst hkey
        simp [bumpCount, lookupCount, beq_eq_false_iff_ne.mpr hkv, hkv]
      · simp [bumpCount, lookupCount, beq_eq_false_iff_ne.mpr hkv,
          beq_eq_false_iff_ne.mpr (fun e => hkey e.symm), ih]

theorem lookupCount_countVersions (ms : List Match) (key : String) :
    lookupCount (countVersions ms) key = ms.countP (fun m => m.version == key) := by
  suffices h : ∀ acc, lookupCount (ms.foldl (fun acc m => bumpCount acc m.version) acc) key =
      lookupCount acc key + ms.countP (fun m => m.version == key) by
    simpa [countVersions, lookupCount] using h []
  induction ms with
  | nil => intro acc; simp
  | cons m rest ih =>
    intro acc
    simp only [List.foldl_cons]
    rw [ih (bumpCount acc m.version), lookupCount_bumpCount, List.countP_cons]
    by_cases h : key = m.version
    · subst h
      simp
      try omega
    · simp [h, beq_eq_false_iff_ne.mpr (fun e => h e.symm)]
      try omega

theorem mem_keys_bumpCount {acc : List (String × Nat)} {v a : String} :
    a ∈ (bumpCount acc v).map Prod.fst ↔ a ∈ acc.map Prod.fst ∨ a = v := by
  induction acc with
  | nil => simp [bumpCount]
  | cons p rest ih =>
    obtain ⟨k, c⟩ := p
    by_cases h : (k == v) = true
    · have hk : k = v := beq_iff_eq.mp h
      subst hk
      simp [bumpCount, h]
      tauto
    · simp [bumpCount, h, ih]
      tauto

theorem nodup_keys_bumpCount {acc : List (String × Nat)} {v : String}
    (h : (acc.map Prod.fst).Nodup) :
    ((bumpCount acc v).map Prod.fst).Nodup := by
  induction acc with
  | nil => simp [bumpCount]
  | cons p rest ih =>
    obtain ⟨k, c⟩ := p
    simp only [List.map_cons, List.nodup_cons] at h
    obtain ⟨hk, hrest⟩ := h
    by_cases hv : (k == v) = true
    · have hbc : bumpCount ((k, c) :: rest) v = (k, c + 1) :: rest := by
        simp [bumpCount, hv]
      rw [hbc, List.map_cons, List.nodup_cons]
      exact ⟨hk, hrest⟩
    · have hbc : bumpCount ((k, c) :: rest) v = (k, c) :: bumpCount rest v := by
        simp [bumpCount, hv]
      rw [hbc, List.map_cons, List.nodup_cons]
      refine ⟨fun hmem => ?_, ih hrest⟩
      rcases mem_keys_bumpCount.mp hmem with h1 | h1
      · exact hk h1
      · exact absurd (beq_iff_eq.mpr h1) (by simp [hv])

theorem nodup_keys_countVersions (ms : List Match) :
    ((countVersions ms).map Prod.fst).Nodup := by
  suffices h : ∀ acc : List (String × Nat), (acc.map Prod.fst).Nodup →
      (((ms.foldl (fun acc m => bumpCount acc m.version) acc)).map Prod.fst).Nodup from
    h [] (by simp)
  induction ms with
  | nil => intro acc hacc; exact hacc
  | cons m rest ih =>
    intro acc hacc
    simp only [List.foldl_cons]
    exact ih _ (nodup_keys_bumpCount hacc)

theorem lookupCount_of_mem {l : List (String × Nat)} {k : String} {c : Nat}
    (hnd : (l.map Prod.fst).Nodup) (hmem : (k, c) ∈ l) : lookupCount l k = c := by
  induction l with
  | nil => cases hmem
  | cons p rest ih =>
    obtain ⟨k0, c0⟩ := p
    simp only [List.map_cons, List.nodup_cons] at hnd
    rcases List.mem_cons.mp hmem with heq | hmem2
    · obtain ⟨rfl, rfl⟩ := Prod.mk.injEq _ _ _ _ ▸ heq
      · simp [lookupCount]
    · have hkmem : k ∈ rest.map Prod.fst := List.mem_map.mpr ⟨(k, c), hmem2, rfl⟩
      have hne : k0 ≠ k := fun e => hnd.1 (e ▸ hkmem)
      simp [lookupCount, beq_eq_false_iff_ne.mpr hne, ih hnd.2 hmem2]

/-- Claim C7: for a non-empty resolved set, the estimate list has at most three
entries, is ordered ascending by ratio, and every entry's ratio is the
count of resolved matches carrying that version divided by the total
resolved count, hence lies in [0, 1]. -/
theorem estimate_version_spec (resolved : List (String × Match)) (hne : resolved ≠ []) :
    (estimatePsyqVesion resolved).length ≤ 3 ∧
    ((estimatePsyqVesion resolved).Pairwise fun a b => a.ratio ≤ b.ratio) ∧
    ∀ e ∈ estimatePsyqVesion resolved,
      e.ratio = ((resolved.map Prod.snd).countP (fun m => m.version == e.version) : ℚ) /
        (resolved.length : ℚ) ∧ 0 ≤ e.ratio ∧ e.ratio ≤ 1 := by
  have htotpos : (0 : ℚ) < (resolved.length : ℚ) := by
    have h0 : 0 < resolved.length := List.length_pos.mpr hne
    exact_mod_cast h0
  have main : ∃ sorted : List VersionEstimate,
      estimatePsyqVesion resolved = (if sorted.length ≥ 3 then sorted.take 3 else sorted) ∧
      (sorted.Pairwise fun a b => a.ratio ≤ b.ratio) ∧
      (∀ e ∈ sorted,
        e.ratio = ((resolved.map Prod.snd).countP (fun m => m.version == e.version) : ℚ) /
          (resolved.length : ℚ) ∧ 0 ≤ e.ratio ∧ e.ratio ≤ 1) := by
    refine ⟨_, rfl, ?_, ?_⟩
    · have hp := pairwise_sortBy (fun a b : VersionEstimate => decide (a.ratio ≤ b.ratio))
        (fun a b hab => by
          simp at hab ⊢
          exact le_of_lt hab)
        (fun a b c hab hbc => by
          simp at hab hbc ⊢
          exact le_trans hab hbc)
        ((countVersions (resolved.map Prod.snd)).map
          (fun vc => VersionEstimate.mk vc.1 ((vc.2 : ℚ) / (resolved.length : ℚ))))
      exact hp.imp fun h => of_decide_eq_true h
    · intro e he
      have he3 := mem_sortBy.mp he
      obtain ⟨vc, hvc, rfl⟩ := List.mem_map.mp he3
      obtain ⟨v, c⟩ := vc
      have hc : c = (resolved.map Prod.snd).countP (fun m => m.version == v) :=
        (lookupCount_of_mem (nodup_keys_countVersions (resolved.map Prod.snd)) hvc).symm.trans
          (lookupCount_countVersions (resolved.map Prod.snd) v)
      refine ⟨?_, ?_, ?_⟩
      · show ((c : ℚ) / (resolved.length : ℚ)) =
          ((resolved.map Prod.snd).countP (fun m => m.version == v) : ℚ) /
            (resolved.length : ℚ)
        rw [hc]
      · exact div_nonneg (Nat.cast_nonneg c) (le_of_lt htotpos)
      · show ((c : ℚ) / (resolved.length : ℚ)) ≤ 1
        rw [div_le_one htotpos, hc]
        have hle : (resolved.map Prod.snd).countP (fun m => m.version == v) ≤
            resolved.length := by
          have h1 := List.countP_le_length (fun m => m.version == v) (l := resolved.map Prod.snd)
          simpa using h1
        exact_mod_cast hle
  obtain ⟨sorted, hdef, hpair, hent⟩ := main
  rw [hdef]
  by_cases h3 : sorted.length ≥ 3
  · rw [if_pos h3]
    refine ⟨?_, ?_, ?_⟩
    · simp [List.length_take]
    · exact List.Pairwise.sublist (List.take_sublist 3 sorted) hpair
    · intro e he
      exact hent e ((List.take_sublist 3 sorted).subset he)
  · rw [if_neg h3]
    exact ⟨by omega, hpair, hent⟩

/-- Witness for C7 at a one-entry resolved set. -/
theorem estimate_version_spec_witness :
    ([("M", Match.mk 0 4 "M" "v1" [])] : List (String × Match)) ≠ [] ∧
    (estimatePsyqVesion [("M", Match.mk 0 4 "M" "v1" [])]).length ≤ 3 :=
  ⟨by decide, (estimate_version_spec _ (by decide)).1⟩
